import Mathlib

/-!
Verification of the Bloom filter in src/BloomFilterHW.py.

Shallow embedding conventions: Python floats are modelled as real numbers,
Python ints as Nat/Int, the BitVector bit array as a List Bool, and the
injected BitHash dependency as an arbitrary function from keys and seed
indices to natural numbers.  Methods that can raise a Python exception on
some input are additionally given Except-valued variants that model the
exception paths; the plain variants give the value computed when no
exception occurs.
-/

/-- Errors the Python code can raise on the paths modelled here:
division by zero during sizing or hash reduction, and an out-of-range
BitVector index. -/
inductive PyError where
  | zeroDivisionError : PyError
  | indexOutOfRange : PyError
  deriving DecidableEq

/-- Python int() applied to a real number: truncation toward zero. -/
noncomputable def pyInt (x : ℝ) : ℤ := if 0 ≤ x then ⌊x⌋ else ⌈x⌉

/-- Source line 17: phi = 1 - maxFalsePositive ** (1 / numHashes). -/
noncomputable def bloomPhi (numHashes : ℕ) (maxFalsePositive : ℝ) : ℝ :=
  1 - maxFalsePositive ^ ((1 : ℝ) / (numHashes : ℝ))

/-- BloomFilter.__bitsNeeded (source lines 14-22): the value computed when no
exception occurs, N = int(numHashes / (1 - phi ** (1 / numKeys))). -/
noncomputable def bitsNeeded (numKeys numHashes : ℕ) (maxFalsePositive : ℝ) : ℤ :=
  pyInt ((numHashes : ℝ) /
    (1 - bloomPhi numHashes maxFalsePositive ^ ((1 : ℝ) / (numKeys : ℝ))))

section ExceptVariant

open Classical

/-- BloomFilter.__bitsNeeded with Python's exception behaviour: the
expression 1 / numHashes raises ZeroDivisionError when numHashes = 0, the
expression 1 / numKeys raises when numKeys = 0, and the final float
division raises when its denominator equals zero. -/
noncomputable def bitsNeededE (numKeys numHashes : ℕ) (maxFalsePositive : ℝ) :
    Except PyError ℤ :=
  if numHashes = 0 then Except.error PyError.zeroDivisionError
  else if numKeys = 0 then Except.error PyError.zeroDivisionError
  else if 1 - bloomPhi numHashes maxFalsePositive ^ ((1 : ℝ) / (numKeys : ℝ)) = 0 then
    Except.error PyError.zeroDivisionError
  else Except.ok (bitsNeeded numKeys numHashes maxFalsePositive)

end ExceptVariant

/-- The attributes set by BloomFilter.__init__ (source lines 28-34):
private fields __n, __d, __p, __N, __bloomFilter (a BitVector of N bits,
modelled as a list of booleans), and __setBits. -/
structure BloomFilter where
  n : ℕ
  d : ℕ
  p : ℝ
  N : ℕ
  bloomFilter : List Bool
  setBits : ℕ

/-- A freshly constructed filter: N zero bits and a zero set-bit counter. -/
def BloomFilter.fresh (numKeys numHashes : ℕ) (maxFalsePositive : ℝ) (N : ℕ) :
    BloomFilter :=
  { n := numKeys, d := numHashes, p := maxFalsePositive, N := N,
    bloomFilter := List.replicate N false, setBits := 0 }

/-- BloomFilter.__init__ (source lines 28-34); an exception raised inside
__bitsNeeded propagates to the caller. -/
noncomputable def BloomFilter.init (numKeys numHashes : ℕ) (maxFalsePositive : ℝ) :
    Except PyError BloomFilter :=
  match bitsNeededE numKeys numHashes maxFalsePositive with
  | Except.error e => Except.error e
  | Except.ok N => Except.ok (BloomFilter.fresh numKeys numHashes maxFalsePositive N.toNat)

/-- One iteration of the loop body of BloomFilter.insert (source lines
43-55): hashVal = BitHash(key, i+1) % N; if the bit is not already 1, set
it and increment the set-bit counter. -/
def insertStep {α : Type} (hash : α → ℕ → ℕ) (key : α) (s : BloomFilter) (i : ℕ) :
    BloomFilter :=
  let hashVal := hash key (i + 1) % s.N
  if s.bloomFilter.getD hashVal false ≠ true then
    { s with bloomFilter := s.bloomFilter.set hashVal true, setBits := s.setBits + 1 }
  else s

/-- BloomFilter.insert (source lines 40-55): run the loop body for
i = 0, 1, ..., d-1. -/
def BloomFilter.insert {α : Type} (hash : α → ℕ → ℕ) (s : BloomFilter) (key : α) :
    BloomFilter :=
  (List.range s.d).foldl (insertStep hash key) s

/-- A sequence of insert calls, one per listed key. -/
def BloomFilter.insertMany {α : Type} (hash : α → ℕ → ℕ) (s : BloomFilter)
    (keys : List α) : BloomFilter :=
  keys.foldl (fun t k => t.insert hash k) s

/-- The loop of BloomFilter.find (source lines 63-74): early return False
on the first zero bit, True once the seed list is exhausted. -/
def findLoop {α : Type} (hash : α → ℕ → ℕ) (key : α) (s : BloomFilter) :
    List ℕ → Bool
  | [] => true
  | i :: rest =>
    if s.bloomFilter.getD (hash key (i + 1) % s.N) false = false then false
    else findLoop hash key s rest

/-- BloomFilter.find (source lines 60-74). -/
def BloomFilter.find {α : Type} (hash : α → ℕ → ℕ) (s : BloomFilter) (key : α) : Bool :=
  findLoop hash key s (List.range s.d)

/-- BloomFilter.falsePositiveRate (source lines 83-91):
realPhi = (1 - d/N) ** n, result (1 - realPhi) ** d.  The exponents are
Python ints, so the power is an iterated product. -/
noncomputable def BloomFilter.falsePositiveRate (s : BloomFilter) : ℝ :=
  let realPhi := (1 - (s.d : ℝ) / (s.N : ℝ)) ^ s.n
  (1 - realPhi) ^ s.d

/-- BloomFilter.numBitsSet (source lines 96-97): returns the counter. -/
def BloomFilter.numBitsSet (s : BloomFilter) : ℕ := s.setBits

/-- BloomFilter.__len__ (source lines 100-101): returns N. -/
def BloomFilter.len (s : BloomFilter) : ℕ := s.N

/-- One iteration of the insert loop with Python's exception behaviour:
the reduction `% N` raises ZeroDivisionError when N = 0, and a BitVector
access outside [0, length) fails. -/
def insertStepE {α : Type} (hash : α → ℕ → ℕ) (key : α) (s : BloomFilter) (i : ℕ) :
    Except PyError BloomFilter :=
  if s.N = 0 then Except.error PyError.zeroDivisionError
  else
    let hashVal := hash key (i + 1) % s.N
    if h : hashVal < s.bloomFilter.length then
      if s.bloomFilter.get ⟨hashVal, h⟩ ≠ true then
        Except.ok { s with bloomFilter := s.bloomFilter.set hashVal true,
                           setBits := s.setBits + 1 }
      else Except.ok s
    else Except.error PyError.indexOutOfRange

/-- The insert loop with exception propagation. -/
def insertLoopE {α : Type} (hash : α → ℕ → ℕ) (key : α) :
    List ℕ → BloomFilter → Except PyError BloomFilter
  | [], s => Except.ok s
  | i :: rest, s =>
    match insertStepE hash key s i with
    | Except.error e => Except.error e
    | Except.ok t => insertLoopE hash key rest t

/-- BloomFilter.insert with Python's exception behaviour. -/
def BloomFilter.insertE {α : Type} (hash : α → ℕ → ℕ) (s : BloomFilter) (key : α) :
    Except PyError BloomFilter :=
  insertLoopE hash key (List.range s.d) s

/-- The find loop with Python's exception behaviour. -/
def findLoopE {α : Type} (hash : α → ℕ → ℕ) (key : α) (s : BloomFilter) :
    List ℕ → Except PyError Bool
  | [] => Except.ok true
  | i :: rest =>
    if s.N = 0 then Except.error PyError.zeroDivisionError
    else
      let hashVal := hash key (i + 1) % s.N
      if h : hashVal < s.bloomFilter.length then
        if s.bloomFilter.get ⟨hashVal, h⟩ = false then Except.ok false
        else findLoopE hash key s rest
      else Except.error PyError.indexOutOfRange

/-- BloomFilter.find with Python's exception behaviour. -/
def BloomFilter.findE {α : Type} (hash : α → ℕ → ℕ) (s : BloomFilter) (key : α) :
    Except PyError Bool :=
  findLoopE hash key s (List.range s.d)

/-- BloomFilter.falsePositiveRate with Python's exception behaviour: the
true division d / N raises ZeroDivisionError when N = 0. -/
noncomputable def BloomFilter.falsePositiveRateE (s : BloomFilter) :
    Except PyError ℝ :=
  if s.N = 0 then Except.error PyError.zeroDivisionError
  else Except.ok s.falsePositiveRate

/-- Python method view of find: every method receives the object state and
returns its result together with the post-call state. -/
def BloomFilter.findM {α : Type} (hash : α → ℕ → ℕ) (s : BloomFilter) (key : α) :
    Bool × BloomFilter :=
  (s.find hash key, s)

/-- Python method view of falsePositiveRate: result plus post-call state. -/
noncomputable def BloomFilter.falsePositiveRateM (s : BloomFilter) : ℝ × BloomFilter :=
  (s.falsePositiveRate, s)

/-- Python method view of numBitsSet: result plus post-call state. -/
def BloomFilter.numBitsSetM (s : BloomFilter) : ℕ × BloomFilter :=
  (s.numBitsSet, s)

/-- Python method view of __len__: result plus post-call state. -/
def BloomFilter.lenM (s : BloomFilter) : ℕ × BloomFilter :=
  (s.len, s)

/-- Filter states reachable from a successful construction whose arguments
satisfy the documented preconditions, by any sequence of insert calls. -/
inductive Reachable {α : Type} (hash : α → ℕ → ℕ) : BloomFilter → Prop where
  | constructed (numKeys numHashes : ℕ) (maxFalsePositive : ℝ) (s : BloomFilter)
      (hn : 0 < numKeys) (hd : 1 ≤ numHashes)
      (hp0 : 0 < maxFalsePositive) (hp1 : maxFalsePositive < 1)
      (hinit : BloomFilter.init numKeys numHashes maxFalsePositive = Except.ok s) :
      Reachable hash s
  | step (s : BloomFilter) (key : α) (hs : Reachable hash s) :
      Reachable hash (s.insert hash key)

/-- The structural invariant maintained by every reachable state: the bit
list has exactly N entries, N is positive, and the counter equals the
number of positions currently holding a one bit. -/
def BloomFilter.Inv (s : BloomFilter) : Prop :=
  s.bloomFilter.length = s.N ∧ 0 < s.N ∧ s.setBits = s.bloomFilter.count true

/-- The formula of spec section 4.1, written from the specification text:
phi = 1 - p^(1/d), then N = d / (1 - phi^(1/n)) floored to an integer. -/
noncomputable def bitsNeededSpec (n d : ℕ) (p : ℝ) : ℤ :=
  ⌊(d : ℝ) / (1 - (1 - p ^ ((1 : ℝ) / (d : ℝ))) ^ ((1 : ℝ) / (n : ℝ)))⌋

/-! ### List helper lemmas -/

theorem getD_set_self (l : List Bool) (i : ℕ) (h : i < l.length) :
    (l.set i true).getD i false = true := by
  simp [List.getD_eq_getElem?_getD, List.getElem?_set_self h]

theorem getD_set_mono (l : List Bool) (i j : ℕ) (h : l.getD j false = true) :
    (l.set i true).getD j false = true := by
  rcases eq_or_ne i j with rfl | hne
  · by_cases hl : i < l.length
    · simp [List.getD_eq_getElem?_getD, List.getElem?_set_self hl]
    · rw [List.set_eq_of_length_le (le_of_not_lt hl)]
      exact h
  · simpa [List.getD_eq_getElem?_getD, List.getElem?_set_ne hne] using h

theorem getD_eq_get (l : List Bool) (i : ℕ) (h : i < l.length) :
    l.getD i false = l.get ⟨i, h⟩ := by
  simp [List.getD_eq_getElem?_getD, List.getElem?_eq_getElem h, List.get_eq_getElem]

theorem count_set_true (l : List Bool) (i : ℕ) (h : i < l.length)
    (hb : l.getD i false = false) :
    (l.set i true).count true = l.count true + 1 := by
  induction l generalizing i with
  | nil => simp at h
  | cons a t ih =>
    cases i with
    | zero =>
      have ha : a = false := by simpa using hb
      subst ha
      simp [List.count_cons]
    | succ j =>
      have hj : j < t.length := by simpa using h
      have hbj : t.getD j false = false := by simpa using hb
      cases a <;> simp [List.count_cons, ih j hj hbj]

theorem foldl_preserves {σ β : Type} (f : σ → β → σ) (P : σ → Prop)
    (hf : ∀ s b, P s → P (f s b)) :
    ∀ (l : List β) (s : σ), P s → P (l.foldl f s) := by
  intro l
  induction l with
  | nil => intro s hs; exact hs
  | cons x xs ih => intro s hs; exact ih (f s x) (hf s x hs)

/-! ### Facts about one insert-loop iteration -/

theorem insertStep_config {α : Type} (hash : α → ℕ → ℕ) (key : α) (s : BloomFilter)
    (i : ℕ) :
    (insertStep hash key s i).n = s.n ∧ (insertStep hash key s i).d = s.d ∧
    (insertStep hash key s i).p = s.p ∧ (insertStep hash key s i).N = s.N ∧
    (insertStep hash key s i).bloomFilter.length = s.bloomFilter.length := by
  simp only [insertStep]
  split <;> simp

theorem insertStep_setBits_le {α : Type} (hash : α → ℕ → ℕ) (key : α) (s : BloomFilter)
    (i : ℕ) : s.setBits ≤ (insertStep hash key s i).setBits := by
  simp only [insertStep]
  split <;> simp

theorem insertStep_getD_mono {α : Type} (hash : α → ℕ → ℕ) (key : α) (s : BloomFilter)
    (i v : ℕ) (h : s.bloomFilter.getD v false = true) :
    (insertStep hash key s i).bloomFilter.getD v false = true := by
  simp only [insertStep]
  split
  · exact getD_set_mono _ _ _ h
  · exact h

theorem insertStep_sets {α : Type} (hash : α → ℕ → ℕ) (key : α) (s : BloomFilter)
    (i : ℕ) (hlen : s.bloomFilter.length = s.N) (hN : 0 < s.N) :
    (insertStep hash key s i).bloomFilter.getD (hash key (i + 1) % s.N) false = true := by
  have hlt : hash key (i + 1) % s.N < s.bloomFilter.length := by
    rw [hlen]
    exact Nat.mod_lt _ hN
  simp only [insertStep]
  split
  · exact getD_set_self _ _ hlt
  · rename_i hcond
    exact not_ne_iff.mp hcond

theorem insertStep_inv {α : Type} (hash : α → ℕ → ℕ) (key : α) (s : BloomFilter)
    (i : ℕ) (hs : s.Inv) : (insertStep hash key s i).Inv := by
  obtain ⟨hlen, hN, hcount⟩ := hs
  simp only [insertStep, BloomFilter.Inv]
  split
  · rename_i hcond
    have hfalse : s.bloomFilter.getD (hash key (i + 1) % s.N) false = false := by
      simpa using hcond
    have hlt : hash key (i + 1) % s.N < s.bloomFilter.length := by
      rw [hlen]
      exact Nat.mod_lt _ hN
    refine ⟨by simpa using hlen, hN, ?_⟩
    rw [count_set_true _ _ hlt hfalse, hcount]
  · exact ⟨hlen, hN, hcount⟩

/-! ### Facts about a full insert call -/

theorem insert_config {α : Type} (hash : α → ℕ → ℕ) (s : BloomFilter) (key : α) :
    (s.insert hash key).n = s.n ∧ (s.insert hash key).d = s.d ∧
    (s.insert hash key).p = s.p ∧ (s.insert hash key).N = s.N ∧
    (s.insert hash key).bloomFilter.length = s.bloomFilter.length := by
  unfold BloomFilter.insert
  refine foldl_preserves (insertStep hash key)
    (fun t => t.n = s.n ∧ t.d = s.d ∧ t.p = s.p ∧ t.N = s.N ∧
      t.bloomFilter.length = s.bloomFilter.length) ?_ _ s
    ⟨rfl, rfl, rfl, rfl, rfl⟩
  intro t i ht
  obtain ⟨h1, h2, h3, h4, h5⟩ := ht
  obtain ⟨g1, g2, g3, g4, g5⟩ := insertStep_config hash key t i
  exact ⟨g1.trans h1, g2.trans h2, g3.trans h3, g4.trans h4, g5.trans h5⟩

theorem insert_inv {α : Type} (hash : α → ℕ → ℕ) (s : BloomFilter) (key : α)
    (hs : s.Inv) : (s.insert hash key).Inv := by
  unfold BloomFilter.insert
  exact foldl_preserves _ BloomFilter.Inv
    (fun t i ht => insertStep_inv hash key t i ht) _ s hs

theorem insert_setBits_le {α : Type} (hash : α → ℕ → ℕ) (s : BloomFilter) (key : α) :
    s.setBits ≤ (s.insert hash key).setBits := by
  unfold BloomFilter.insert
  exact foldl_preserves _ (fun t => s.setBits ≤ t.setBits)
    (fun t i ht => le_trans ht (insertStep_setBits_le hash key t i)) _ s le_rfl

theorem insert_getD_mono {α : Type} (hash : α → ℕ → ℕ) (s : BloomFilter) (key : α)
    (v : ℕ) (h : s.bloomFilter.getD v false = true) :
    (s.insert hash key).bloomFilter.getD v false = true := by
  unfold BloomFilter.insert
  exact foldl_preserves _ (fun t => t.bloomFilter.getD v false = true)
    (fun t i ht => insertStep_getD_mono hash key t i v ht) _ s h

theorem foldl_insertStep_sets {α : Type} (hash : α → ℕ → ℕ) (key : α) (N₀ : ℕ)
    (hN : 0 < N₀) :
    ∀ (l : List ℕ) (s : BloomFilter), s.N = N₀ → s.bloomFilter.length = N₀ →
      ∀ i ∈ l,
        (l.foldl (insertStep hash key) s).bloomFilter.getD
          (hash key (i + 1) % N₀) false = true := by
  intro l
  induction l with
  | nil =>
    intro s _ _ i hi
    simp at hi
  | cons j rest ih =>
    intro s hsN hslen i hi
    have hstep := insertStep_config hash key s j
    have hN' : (insertStep hash key s j).N = N₀ := by rw [hstep.2.2.2.1, hsN]
    have hlen' : (insertStep hash key s j).bloomFilter.length = N₀ := by
      rw [hstep.2.2.2.2, hslen]
    rw [List.foldl_cons]
    rcases List.mem_cons.mp hi with rfl | hrest
    · have hset : (insertStep hash key s i).bloomFilter.getD
          (hash key (i + 1) % N₀) false = true := by
        have hres := insertStep_sets hash key s i (hslen.trans hsN.symm)
          (by rw [hsN]; exact hN)
        rwa [hsN] at hres
      exact foldl_preserves _
        (fun t => t.bloomFilter.getD (hash key (i + 1) % N₀) false = true)
        (fun t b ht => insertStep_getD_mono hash key t b _ ht) rest _ hset
    · exact ih (insertStep hash key s j) hN' hlen' i hrest

theorem insert_sets_all {α : Type} (hash : α → ℕ → ℕ) (s : BloomFilter) (key : α)
    (hlen : s.bloomFilter.length = s.N) (hN : 0 < s.N) :
    ∀ i < s.d,
      (s.insert hash key).bloomFilter.getD (hash key (i + 1) % s.N) false = true := by
  intro i hi
  unfold BloomFilter.insert
  exact foldl_insertStep_sets hash key s.N hN (List.range s.d) s rfl hlen i
    (List.mem_range.mpr hi)

/-! ### Characterization of the find loop -/

theorem findLoop_eq_true_iff {α : Type} (hash : α → ℕ → ℕ) (key : α) (s : BloomFilter) :
    ∀ l : List ℕ, findLoop hash key s l = true ↔
      ∀ i ∈ l, s.bloomFilter.getD (hash key (i + 1) % s.N) false = true := by
  intro l
  induction l with
  | nil => simp [findLoop]
  | cons j rest ih =>
    simp only [findLoop, List.mem_cons]
    split
    · rename_i hzero
      constructor
      · intro hfalse
        cases hfalse
      · intro hall
        have hj := hall j (Or.inl rfl)
        rw [hj] at hzero
        cases hzero
    · rename_i hnz
      have hone : s.bloomFilter.getD (hash key (j + 1) % s.N) false = true := by
        cases hgd : s.bloomFilter.getD (hash key (j + 1) % s.N) false
        · exact absurd hgd hnz
        · rfl
      rw [ih]
      constructor
      · intro hall i hi
        rcases hi with rfl | hr
        · exact hone
        · exact hall i hr
      · intro hall i hi
        exact hall i (Or.inr hi)

/-! ### Real-valued analysis of the sizing formula -/

theorem bloomPhi_pos (numHashes : ℕ) (p : ℝ) (hd : 0 < numHashes) (hp0 : 0 ≤ p)
    (hp1 : p < 1) : 0 < bloomPhi numHashes p := by
  have h : p ^ ((1 : ℝ) / (numHashes : ℝ)) < 1 :=
    Real.rpow_lt_one hp0 hp1 (div_pos one_pos (by exact_mod_cast hd))
  unfold bloomPhi
  linarith

theorem bloomPhi_lt_one (numHashes : ℕ) (p : ℝ) (hp0 : 0 < p) :
    bloomPhi numHashes p < 1 := by
  have h : 0 < p ^ ((1 : ℝ) / (numHashes : ℝ)) := Real.rpow_pos_of_pos hp0 _
  unfold bloomPhi
  linarith

theorem bloomDenom_pos (nk nh : ℕ) (p : ℝ) (hnk : 0 < nk) (hnh : 0 < nh)
    (hp0 : 0 < p) (hp1 : p < 1) :
    0 < 1 - bloomPhi nh p ^ ((1 : ℝ) / (nk : ℝ)) := by
  have h1 : bloomPhi nh p ^ ((1 : ℝ) / (nk : ℝ)) < 1 :=
    Real.rpow_lt_one (le_of_lt (bloomPhi_pos nh p hnh (le_of_lt hp0) hp1))
      (bloomPhi_lt_one nh p hp0) (div_pos one_pos (by exact_mod_cast hnk))
  linarith

theorem bloomDenom_le_one (nk nh : ℕ) (p : ℝ) (hnh : 0 < nh) (hp0 : 0 < p)
    (hp1 : p < 1) :
    1 - bloomPhi nh p ^ ((1 : ℝ) / (nk : ℝ)) ≤ 1 := by
  have h : 0 < bloomPhi nh p ^ ((1 : ℝ) / (nk : ℝ)) :=
    Real.rpow_pos_of_pos (bloomPhi_pos nh p hnh (le_of_lt hp0) hp1) _
  linarith

theorem bitsNeeded_ge (nk nh : ℕ) (p : ℝ) (hnk : 0 < nk) (hnh : 0 < nh)
    (hp0 : 0 < p) (hp1 : p < 1) :
    (nh : ℤ) ≤ bitsNeeded nk nh p := by
  have hdpos := bloomDenom_pos nk nh p hnk hnh hp0 hp1
  have hdle := bloomDenom_le_one nk nh p hnh hp0 hp1
  have hval : (nh : ℝ) ≤ (nh : ℝ) / (1 - bloomPhi nh p ^ ((1 : ℝ) / (nk : ℝ))) := by
    rw [le_div_iff₀ hdpos]
    calc (nh : ℝ) * (1 - bloomPhi nh p ^ ((1 : ℝ) / (nk : ℝ)))
        ≤ (nh : ℝ) * 1 := mul_le_mul_of_nonneg_left hdle (by positivity)
      _ = (nh : ℝ) := mul_one _
  have hnonneg : 0 ≤ (nh : ℝ) / (1 - bloomPhi nh p ^ ((1 : ℝ) / (nk : ℝ))) :=
    le_trans (by positivity) hval
  unfold bitsNeeded pyInt
  rw [if_pos hnonneg]
  exact Int.le_floor.mpr (by push_cast; exact hval)

theorem bitsNeeded_toNat_pos (nk nh : ℕ) (p : ℝ) (hnk : 0 < nk) (hnh : 0 < nh)
    (hp0 : 0 < p) (hp1 : p < 1) :
    0 < (bitsNeeded nk nh p).toNat := by
  have h1 : (nh : ℤ) ≤ bitsNeeded nk nh p := bitsNeeded_ge nk nh p hnk hnh hp0 hp1
  have h2 : (0 : ℤ) < (nh : ℤ) := by exact_mod_cast hnh
  omega

theorem bitsNeededE_ok (nk nh : ℕ) (p : ℝ) (hnk : 0 < nk) (hnh : 0 < nh)
    (hden : 1 - bloomPhi nh p ^ ((1 : ℝ) / (nk : ℝ)) ≠ 0) :
    bitsNeededE nk nh p = Except.ok (bitsNeeded nk nh p) := by
  unfold bitsNeededE
  rw [if_neg (Nat.pos_iff_ne_zero.mp hnh), if_neg (Nat.pos_iff_ne_zero.mp hnk),
    if_neg hden]

theorem init_ok (nk nh : ℕ) (p : ℝ) (hnk : 0 < nk) (hnh : 0 < nh)
    (hp0 : 0 < p) (hp1 : p < 1) :
    BloomFilter.init nk nh p =
      Except.ok (BloomFilter.fresh nk nh p (bitsNeeded nk nh p).toNat) := by
  unfold BloomFilter.init
  rw [bitsNeededE_ok nk nh p hnk hnh
    (ne_of_gt (bloomDenom_pos nk nh p hnk hnh hp0 hp1))]

theorem reachable_inv {α : Type} (hash : α → ℕ → ℕ) (s : BloomFilter)
    (hs : Reachable hash s) : s.Inv := by
  induction hs with
  | constructed nk nh p t hn hd hp0 hp1 hinit =>
    rw [init_ok nk nh p hn hd hp0 hp1] at hinit
    have ht : BloomFilter.fresh nk nh p (bitsNeeded nk nh p).toNat = t := by
      injection hinit
    subst ht
    refine ⟨by simp [BloomFilter.fresh], ?_, by simp [BloomFilter.fresh, List.count_replicate]⟩
    exact bitsNeeded_toNat_pos nk nh p hn hd hp0 hp1
  | step t key ht ih =>
    exact insert_inv hash t key ih

/-! ### Idempotence machinery -/

theorem insertStep_of_bit_set {α : Type} (hash : α → ℕ → ℕ) (key : α)
    (s : BloomFilter) (i : ℕ)
    (h : s.bloomFilter.getD (hash key (i + 1) % s.N) false = true) :
    insertStep hash key s i = s := by
  simp only [insertStep]
  rw [if_neg (not_ne_iff.mpr h)]

theorem foldl_insertStep_id {α : Type} (hash : α → ℕ → ℕ) (key : α) (t : BloomFilter) :
    ∀ l : List ℕ,
      (∀ i ∈ l, t.bloomFilter.getD (hash key (i + 1) % t.N) false = true) →
      l.foldl (insertStep hash key) t = t := by
  intro l
  induction l with
  | nil => intro _; rfl
  | cons j rest ih =>
    intro hall
    rw [List.foldl_cons,
      insertStep_of_bit_set hash key t j (hall j (List.mem_cons_self j rest))]
    exact ih (fun i hi => hall i (List.mem_cons_of_mem j hi))

theorem insert_insert_self {α : Type} (hash : α → ℕ → ℕ) (s : BloomFilter) (key : α)
    (hlen : s.bloomFilter.length = s.N) (hN : 0 < s.N) :
    (s.insert hash key).insert hash key = s.insert hash key := by
  have hcfg := insert_config hash s key
  have hbits : ∀ i ∈ List.range (s.insert hash key).d,
      (s.insert hash key).bloomFilter.getD
        (hash key (i + 1) % (s.insert hash key).N) false = true := by
    intro i hi
    rw [hcfg.2.2.2.1]
    exact insert_sets_all hash s key hlen hN i
      (by rw [← hcfg.2.1]; exact List.mem_range.mp hi)
  exact foldl_insertStep_id hash key _ (List.range (s.insert hash key).d) hbits

/-! ### Agreement of the exception-aware variants with the pure ones -/

theorem insertStepE_ok {α : Type} (hash : α → ℕ → ℕ) (key : α) (s : BloomFilter)
    (i : ℕ) (hlen : s.bloomFilter.length = s.N) (hN : 0 < s.N) :
    insertStepE hash key s i = Except.ok (insertStep hash key s i) := by
  have hNne : s.N ≠ 0 := Nat.pos_iff_ne_zero.mp hN
  have hlt : hash key (i + 1) % s.N < s.bloomFilter.length := by
    rw [hlen]
    exact Nat.mod_lt _ hN
  simp only [insertStepE, insertStep]
  rw [if_neg hNne, dif_pos hlt, getD_eq_get s.bloomFilter _ hlt]
  split <;> rfl

theorem insertLoopE_ok {α : Type} (hash : α → ℕ → ℕ) (key : α) :
    ∀ (l : List ℕ) (s : BloomFilter), s.bloomFilter.length = s.N → 0 < s.N →
      insertLoopE hash key l s = Except.ok (l.foldl (insertStep hash key) s) := by
  intro l
  induction l with
  | nil => intro s _ _; rfl
  | cons j rest ih =>
    intro s hlen hN
    rw [List.foldl_cons]
    simp only [insertLoopE]
    rw [insertStepE_ok hash key s j hlen hN]
    have hcfg := insertStep_config hash key s j
    exact ih (insertStep hash key s j)
      ((hcfg.2.2.2.2.trans hlen).trans hcfg.2.2.2.1.symm)
      (by rw [hcfg.2.2.2.1]; exact hN)

theorem insertE_ok {α : Type} (hash : α → ℕ → ℕ) (s : BloomFilter) (key : α)
    (hlen : s.bloomFilter.length = s.N) (hN : 0 < s.N) :
    s.insertE hash key = Except.ok (s.insert hash key) :=
  insertLoopE_ok hash key (List.range s.d) s hlen hN

theorem findLoopE_ok {α : Type} (hash : α → ℕ → ℕ) (key : α) (s : BloomFilter)
    (hlen : s.bloomFilter.length = s.N) (hN : 0 < s.N) :
    ∀ l : List ℕ, findLoopE hash key s l = Except.ok (findLoop hash key s l) := by
  intro l
  induction l with
  | nil => rfl
  | cons j rest ih =>
    have hNne : s.N ≠ 0 := Nat.pos_iff_ne_zero.mp hN
    have hlt : hash key (j + 1) % s.N < s.bloomFilter.length := by
      rw [hlen]
      exact Nat.mod_lt _ hN
    simp only [findLoopE, findLoop]
    rw [if_neg hNne, dif_pos hlt, getD_eq_get s.bloomFilter _ hlt]
    split
    · rfl
    · exact ih

theorem findE_ok {α : Type} (hash : α → ℕ → ℕ) (s : BloomFilter) (key : α)
    (hlen : s.bloomFilter.length = s.N) (hN : 0 < s.N) :
    s.findE hash key = Except.ok (s.find hash key) :=
  findLoopE_ok hash key s hlen hN (List.range s.d)

theorem falsePositiveRateE_ok (s : BloomFilter) (hN : 0 < s.N) :
    s.falsePositiveRateE = Except.ok s.falsePositiveRate := by
  unfold BloomFilter.falsePositiveRateE
  rw [if_neg (Nat.pos_iff_ne_zero.mp hN)]

/-! ### Concrete evaluations of the construction -/

theorem bloomPhi_at_one (nh : ℕ) : bloomPhi nh 1 = 0 := by
  unfold bloomPhi
  rw [Real.one_rpow]
  ring

theorem init_at_one (nk nh : ℕ) (hnk : 0 < nk) (hnh : 0 < nh) :
    BloomFilter.init nk nh 1 = Except.ok (BloomFilter.fresh nk nh 1 nh) := by
  have hexp : (1 : ℝ) / (nk : ℝ) ≠ 0 :=
    ne_of_gt (div_pos one_pos (by exact_mod_cast hnk))
  have hden : 1 - bloomPhi nh 1 ^ ((1 : ℝ) / (nk : ℝ)) = 1 := by
    rw [bloomPhi_at_one, Real.zero_rpow hexp]
    ring
  have hbn : bitsNeeded nk nh 1 = (nh : ℤ) := by
    unfold bitsNeeded
    rw [hden, div_one]
    unfold pyInt
    rw [if_pos (by positivity)]
    exact Int.floor_natCast nh
  unfold BloomFilter.init
  rw [bitsNeededE_ok nk nh 1 hnk hnh (by rw [hden]; norm_num), hbn]
  simp [Int.toNat_natCast]

theorem init_demo : BloomFilter.init 1 1 ((1 : ℝ)/2) =
    Except.ok (BloomFilter.fresh 1 1 ((1 : ℝ)/2) 2) := by
  have hexp : (1 : ℝ) / ((1 : ℕ) : ℝ) = 1 := by norm_num
  have hphi : bloomPhi 1 ((1 : ℝ)/2) = 1/2 := by
    unfold bloomPhi
    rw [hexp, Real.rpow_one]
    norm_num
  have hden : 1 - bloomPhi 1 ((1 : ℝ)/2) ^ ((1 : ℝ) / ((1 : ℕ) : ℝ)) = 1/2 := by
    rw [hphi, hexp, Real.rpow_one]
    norm_num
  have hbn : bitsNeeded 1 1 ((1 : ℝ)/2) = 2 := by
    unfold bitsNeeded
    rw [hden]
    have hv : ((1 : ℕ) : ℝ) / ((1 : ℝ)/2) = ((2 : ℤ) : ℝ) := by norm_num
    rw [hv]
    unfold pyInt
    rw [if_pos (by norm_num), Int.floor_intCast]
  unfold BloomFilter.init
  rw [bitsNeededE_ok 1 1 ((1 : ℝ)/2) one_pos one_pos (by rw [hden]; norm_num), hbn]
  rfl

theorem reachable_demo :
    Reachable (fun k i => k + i) (BloomFilter.fresh 1 1 ((1 : ℝ)/2) 2) :=
  Reachable.constructed 1 1 ((1 : ℝ)/2) _ one_pos le_rfl (by norm_num) (by norm_num)
    init_demo

/-! ### Claim theorems -/

/-- C1: No false negatives.  In any filter state reachable from a valid
construction (numKeys > 0, numHashes >= 1, 0 < maxFalsePositive < 1) by a
sequence of inserts, after insert(k) the query find(k) returns true, and it
still returns true after any further sequence of inserts of arbitrary
other keys. -/
theorem insert_find_no_false_negative {α : Type} (hash : α → ℕ → ℕ)
    (s : BloomFilter) (hs : Reachable hash s) (k : α) (others : List α) :
    (s.insert hash k).find hash k = true ∧
    ((s.insert hash k).insertMany hash others).find hash k = true := by
  obtain ⟨hlen, hN, -⟩ := reachable_inv hash s hs
  have hbits : ∀ i < s.d,
      (s.insert hash k).bloomFilter.getD (hash k (i + 1) % s.N) false = true :=
    insert_sets_all hash s k hlen hN
  have hP : ∀ others' : List α,
      ((s.insert hash k).insertMany hash others').N = s.N ∧
      ((s.insert hash k).insertMany hash others').d = s.d ∧
      ∀ i < s.d, ((s.insert hash k).insertMany hash others').bloomFilter.getD
        (hash k (i + 1) % s.N) false = true := by
    intro others'
    unfold BloomFilter.insertMany
    refine foldl_preserves _ (fun v : BloomFilter => v.N = s.N ∧ v.d = s.d ∧
      ∀ i < s.d, v.bloomFilter.getD (hash k (i + 1) % s.N) false = true)
      ?_ others' _ ?_
    · intro v k2 hv
      have hcfg := insert_config hash v k2
      exact ⟨hcfg.2.2.2.1.trans hv.1, hcfg.2.1.trans hv.2.1,
        fun i hi => insert_getD_mono hash v k2 _ (hv.2.2 i hi)⟩
    · have hcfg := insert_config hash s k
      exact ⟨hcfg.2.2.2.1, hcfg.2.1, hbits⟩
  have hfind : ∀ u : BloomFilter, u.N = s.N → u.d = s.d →
      (∀ i < s.d, u.bloomFilter.getD (hash k (i + 1) % s.N) false = true) →
      u.find hash k = true := by
    intro u huN hud hub
    unfold BloomFilter.find
    rw [findLoop_eq_true_iff]
    intro i hi
    rw [huN]
    exact hub i (by rw [← hud]; exact List.mem_range.mp hi)
  constructor
  · have h0 := hP []
    exact hfind _ h0.1 h0.2.1 h0.2.2
  · have h1 := hP others
    exact hfind _ h1.1 h1.2.1 h1.2.2

/-- Witness for C1 at a concrete reachable filter, key 0 and a further
insert of key 5. -/
theorem insert_find_no_false_negative_w :
    ((BloomFilter.fresh 1 1 ((1 : ℝ)/2) 2).insert (fun k i => k + i) 0).find
      (fun k i => k + i) 0 = true ∧
    (((BloomFilter.fresh 1 1 ((1 : ℝ)/2) 2).insert (fun k i => k + i) 0).insertMany
      (fun k i => k + i) (5 :: [])).find (fun k i => k + i) 0 = true :=
  insert_find_no_false_negative (fun k i => k + i) _ reachable_demo 0 (5 :: [])

/-- C2 counterexample: constructing with maxFalsePositive = 1.0 does not
fail with any error, let alone an InvalidConfiguration error (which the
code never defines); it succeeds and yields a filter with N = numHashes. -/
theorem init_p_one_succeeds :
    BloomFilter.init 100000 4 1 = Except.ok (BloomFilter.fresh 100000 4 1 4) :=
  init_at_one 100000 4 (by norm_num) (by norm_num)

/-- C2 amended: the code performs no configuration validation.  Construction
with numKeys = 0 or numHashes = 0 fails with ZeroDivisionError raised inside
the sizing computation, and construction with maxFalsePositive = 1.0
succeeds, producing a filter of size N = numHashes. -/
theorem init_rejection_behavior (nk nh : ℕ) (p : ℝ) :
    (nh = 0 → BloomFilter.init nk nh p = Except.error PyError.zeroDivisionError) ∧
    (nk = 0 → BloomFilter.init nk nh p = Except.error PyError.zeroDivisionError) ∧
    (0 < nk → 0 < nh →
      BloomFilter.init nk nh 1 = Except.ok (BloomFilter.fresh nk nh 1 nh)) := by
  refine ⟨?_, ?_, ?_⟩
  · intro h0
    unfold BloomFilter.init bitsNeededE
    rw [if_pos h0]
  · intro h0
    unfold BloomFilter.init bitsNeededE
    by_cases hnh : nh = 0
    · rw [if_pos hnh]
    · rw [if_neg hnh, if_pos h0]
  · intro hnk hnh
    exact init_at_one nk nh hnk hnh

/-- Witness for the amended C2 at concrete configurations. -/
theorem init_rejection_behavior_w :
    BloomFilter.init 0 3 ((1 : ℝ)/2) = Except.error PyError.zeroDivisionError ∧
    BloomFilter.init 2 3 1 = Except.ok (BloomFilter.fresh 2 3 1 3) :=
  ⟨(init_rejection_behavior 0 3 ((1 : ℝ)/2)).2.1 rfl,
   (init_rejection_behavior 2 3 1).2.2 (by norm_num) (by norm_num)⟩

/-- C3: find(key) returns false iff some probed bit (position
hash(key, i+1) mod N for i+1 in 1..d) is 0; it returns true iff all d
probed bits are 1; and the loop returns false at the first zero bit
regardless of the remaining seed indices. -/
theorem find_false_iff {α : Type} (hash : α → ℕ → ℕ) (s : BloomFilter) (k : α) :
    (s.find hash k = false ↔
      ∃ i, i < s.d ∧ s.bloomFilter.getD (hash k (i + 1) % s.N) false = false) ∧
    (s.find hash k = true ↔
      ∀ i, i < s.d → s.bloomFilter.getD (hash k (i + 1) % s.N) false = true) ∧
    (∀ i rest, s.bloomFilter.getD (hash k (i + 1) % s.N) false = false →
      findLoop hash k s (i :: rest) = false) := by
  have hiff := findLoop_eq_true_iff hash k s (List.range s.d)
  have hfind_t : s.find hash k = true ↔
      ∀ i, i < s.d → s.bloomFilter.getD (hash k (i + 1) % s.N) false = true := by
    unfold BloomFilter.find
    rw [hiff]
    constructor
    · intro h i hi
      exact h i (List.mem_range.mpr hi)
    · intro h i hi
      exact h i (List.mem_range.mp hi)
  refine ⟨?_, hfind_t, ?_⟩
  · rw [← Bool.not_eq_true, hfind_t]
    push_neg
    constructor
    · intro ⟨i, hi, hne⟩
      exact ⟨i, hi, by simpa using hne⟩
    · intro ⟨i, hi, hz⟩
      exact ⟨i, hi, by simpa using hz⟩
  · intro i rest hzero
    simp only [findLoop]
    rw [if_pos hzero]

/-- Witness for C3: on a concrete filter whose probed bit for key 5 is
zero, the find loop returns false immediately. -/
theorem find_false_iff_w :
    findLoop (fun k i => k + i) 5
      ((BloomFilter.fresh 1 1 ((1 : ℝ)/2) 2).insert (fun k i => k + i) 0)
      (0 :: []) = false :=
  (find_false_iff (fun k i => k + i)
    ((BloomFilter.fresh 1 1 ((1 : ℝ)/2) 2).insert (fun k i => k + i) 0) 5).2.2
    0 [] (by rfl)

/-- C4: deterministic sizing: under the documented preconditions the code
raises nothing and computes exactly the specification formula
phi = 1 - p^(1/d), N = floor(d / (1 - phi^(1/n))); identical inputs yield
identical N. -/
theorem bitsNeeded_deterministic_formula (n d : ℕ) (p : ℝ) (hn : 0 < n)
    (hd : 1 ≤ d) (hp0 : 0 < p) (hp1 : p < 1) :
    bitsNeededE n d p = Except.ok (bitsNeededSpec n d p) ∧
    bitsNeeded n d p = bitsNeededSpec n d p ∧
    ∀ n2 d2 : ℕ, ∀ p2 : ℝ, n2 = n → d2 = d → p2 = p →
      bitsNeeded n2 d2 p2 = bitsNeeded n d p := by
  have hdpos := bloomDenom_pos n d p hn hd hp0 hp1
  have heq : bitsNeeded n d p = bitsNeededSpec n d p := by
    have hnonneg : 0 ≤ (d : ℝ) / (1 - bloomPhi d p ^ ((1 : ℝ) / (n : ℝ))) :=
      div_nonneg (Nat.cast_nonneg d) (le_of_lt hdpos)
    unfold bitsNeeded pyInt
    rw [if_pos hnonneg]
    unfold bitsNeededSpec bloomPhi
    rfl
  refine ⟨?_, heq, ?_⟩
  · rw [bitsNeededE_ok n d p hn hd (ne_of_gt hdpos), heq]
  · intro n2 d2 p2 h1 h2 h3
    rw [h1, h2, h3]

/-- Witness for C4 at n = 1, d = 1, p = 1/2. -/
theorem bitsNeeded_deterministic_formula_w :
    bitsNeededE 1 1 ((1 : ℝ)/2) = Except.ok (bitsNeededSpec 1 1 ((1 : ℝ)/2)) ∧
    bitsNeeded 1 1 ((1 : ℝ)/2) = bitsNeededSpec 1 1 ((1 : ℝ)/2) :=
  ⟨(bitsNeeded_deterministic_formula 1 1 ((1 : ℝ)/2) one_pos le_rfl (by norm_num)
      (by norm_num)).1,
   (bitsNeeded_deterministic_formula 1 1 ((1 : ℝ)/2) one_pos le_rfl (by norm_num)
      (by norm_num)).2.1⟩

/-- C5: the false-positive-rate estimator returns exactly
(1 - (1 - d/N)^n)^d, computed from n, d, N only: any state with the same
n, d, N yields the same value, and an insert never changes it. -/
theorem falsePositiveRate_formula {α : Type} (hash : α → ℕ → ℕ)
    (s t : BloomFilter) (hn : t.n = s.n) (hd : t.d = s.d) (hN : t.N = s.N)
    (k : α) :
    s.falsePositiveRate = (1 - (1 - (s.d : ℝ) / (s.N : ℝ)) ^ s.n) ^ s.d ∧
    t.falsePositiveRate = s.falsePositiveRate ∧
    (s.insert hash k).falsePositiveRate = s.falsePositiveRate := by
  have hform : ∀ u : BloomFilter,
      u.falsePositiveRate = (1 - (1 - (u.d : ℝ) / (u.N : ℝ)) ^ u.n) ^ u.d :=
    fun u => rfl
  refine ⟨hform s, ?_, ?_⟩
  · rw [hform t, hform s, hn, hd, hN]
  · have hcfg := insert_config hash s k
    rw [hform (s.insert hash k), hform s, hcfg.1, hcfg.2.1, hcfg.2.2.2.1]

/-- Witness for C5: a freshly constructed filter and the same filter after
an insert (different bit contents and counter) share the estimator value. -/
theorem falsePositiveRate_formula_w :
    (BloomFilter.fresh 1 1 ((1 : ℝ)/2) 2).falsePositiveRate =
      (1 - (1 - ((BloomFilter.fresh 1 1 ((1 : ℝ)/2) 2).d : ℝ) /
        ((BloomFilter.fresh 1 1 ((1 : ℝ)/2) 2).N : ℝ)) ^
        (BloomFilter.fresh 1 1 ((1 : ℝ)/2) 2).n) ^
        (BloomFilter.fresh 1 1 ((1 : ℝ)/2) 2).d ∧
    ((BloomFilter.fresh 1 1 ((1 : ℝ)/2) 2).insert (fun k i => k + i) 0).falsePositiveRate =
      (BloomFilter.fresh 1 1 ((1 : ℝ)/2) 2).falsePositiveRate :=
  ⟨(falsePositiveRate_formula (fun k i => k + i) (BloomFilter.fresh 1 1 ((1 : ℝ)/2) 2)
      ((BloomFilter.fresh 1 1 ((1 : ℝ)/2) 2).insert (fun k i => k + i) 0)
      (by rfl) (by rfl) (by rfl) 0).1,
   (falsePositiveRate_formula (fun k i => k + i) (BloomFilter.fresh 1 1 ((1 : ℝ)/2) 2)
      ((BloomFilter.fresh 1 1 ((1 : ℝ)/2) 2).insert (fun k i => k + i) 0)
      (by rfl) (by rfl) (by rfl) 0).2.2⟩

/-- C6: idempotent insert: on any reachable state, inserting the same key
twice leaves the set-bit counter unchanged relative to the first insert and
leaves all find results unchanged. -/
theorem insert_idempotent {α : Type} (hash : α → ℕ → ℕ) (s : BloomFilter)
    (hs : Reachable hash s) (k : α) :
    ((s.insert hash k).insert hash k).numBitsSet = (s.insert hash k).numBitsSet ∧
    ∀ k2 : α, ((s.insert hash k).insert hash k).find hash k2 =
      (s.insert hash k).find hash k2 := by
  obtain ⟨hlen, hN, -⟩ := reachable_inv hash s hs
  have heq := insert_insert_self hash s k hlen hN
  rw [heq]
  exact ⟨rfl, fun k2 => rfl⟩

/-- Witness for C6 at a concrete reachable filter and key 0. -/
theorem insert_idempotent_w :
    (((BloomFilter.fresh 1 1 ((1 : ℝ)/2) 2).insert (fun k i => k + i) 0).insert
      (fun k i => k + i) 0).numBitsSet =
    ((BloomFilter.fresh 1 1 ((1 : ℝ)/2) 2).insert (fun k i => k + i) 0).numBitsSet :=
  (insert_idempotent (fun k i => k + i) _ reachable_demo 0).1

/-- C7: counter correctness: on every reachable state the counter equals
the number of bit positions currently 1; at construction the counter is 0
with all N bits 0; and an insert iteration whose probed bit is already 1
leaves the counter unchanged. -/
theorem numBitsSet_counts_ones {α : Type} (hash : α → ℕ → ℕ) :
    (∀ s : BloomFilter, Reachable hash s →
      s.numBitsSet = s.bloomFilter.count true) ∧
    (∀ (numKeys numHashes : ℕ) (maxFalsePositive : ℝ) (s : BloomFilter),
      BloomFilter.init numKeys numHashes maxFalsePositive = Except.ok s →
      s.numBitsSet = 0 ∧ s.bloomFilter = List.replicate s.N false) ∧
    (∀ (s : BloomFilter) (k : α) (i : ℕ),
      s.bloomFilter.getD (hash k (i + 1) % s.N) false = true →
      (insertStep hash k s i).numBitsSet = s.numBitsSet) := by
  refine ⟨?_, ?_, ?_⟩
  · intro s hs
    exact (reachable_inv hash s hs).2.2
  · intro nk nh p s hinit
    unfold BloomFilter.init at hinit
    cases hE : bitsNeededE nk nh p with
    | error e =>
      rw [hE] at hinit
      cases hinit
    | ok N =>
      rw [hE] at hinit
      have hfr : BloomFilter.fresh nk nh p N.toNat = s := by injection hinit
      subst hfr
      exact ⟨rfl, rfl⟩
  · intro s k i hbit
    unfold BloomFilter.numBitsSet
    rw [insertStep_of_bit_set hash k s i hbit]

/-- Witness for C7: the freshly constructed demo filter satisfies the
counter invariant. -/
theorem numBitsSet_counts_ones_w :
    (BloomFilter.fresh 1 1 ((1 : ℝ)/2) 2).numBitsSet =
      (BloomFilter.fresh 1 1 ((1 : ℝ)/2) 2).bloomFilter.count true :=
  (numBitsSet_counts_ones (fun (k : ℕ) (i : ℕ) => k + i)).1 _ reachable_demo

/-- C8: monotonic bounded occupancy: insert never decreases the counter,
the read-only operations leave it unchanged, and on every reachable state
the counter never exceeds size() = N. -/
theorem numBitsSet_monotone_bounded {α : Type} (hash : α → ℕ → ℕ) :
    (∀ (s : BloomFilter) (k : α), s.numBitsSet ≤ (s.insert hash k).numBitsSet) ∧
    (∀ (s : BloomFilter) (k : α), ((s.findM hash k).2).numBitsSet = s.numBitsSet) ∧
    (∀ s : BloomFilter, (s.falsePositiveRateM.2).numBitsSet = s.numBitsSet) ∧
    (∀ s : BloomFilter, Reachable hash s → s.numBitsSet ≤ s.len) := by
  refine ⟨?_, fun s k => rfl, fun s => rfl, ?_⟩
  · intro s k
    exact insert_setBits_le hash s k
  · intro s hs
    obtain ⟨hlen, hN, hcount⟩ := reachable_inv hash s hs
    unfold BloomFilter.numBitsSet BloomFilter.len
    rw [hcount, ← hlen]
    exact List.count_le_length true s.bloomFilter

/-- Witness for C8 at the demo filter: the counter is bounded by N. -/
theorem numBitsSet_monotone_bounded_w :
    (BloomFilter.fresh 1 1 ((1 : ℝ)/2) 2).numBitsSet ≤
      (BloomFilter.fresh 1 1 ((1 : ℝ)/2) 2).len :=
  (numBitsSet_monotone_bounded (fun (k : ℕ) (i : ℕ) => k + i)).2.2.2 _ reachable_demo

/-- C9: totality after construction: on every reachable state the
exception-aware versions of insert, find and falsePositiveRate return
exactly the pure results (no error path is taken), and every computed hash
position lies in [0, N). -/
theorem operations_total {α : Type} (hash : α → ℕ → ℕ) (s : BloomFilter)
    (hs : Reachable hash s) (k : α) :
    s.insertE hash k = Except.ok (s.insert hash k) ∧
    s.findE hash k = Except.ok (s.find hash k) ∧
    s.falsePositiveRateE = Except.ok s.falsePositiveRate ∧
    ∀ i : ℕ, hash k (i + 1) % s.N < s.N := by
  obtain ⟨hlen, hN, -⟩ := reachable_inv hash s hs
  exact ⟨insertE_ok hash s k hlen hN, findE_ok hash s k hlen hN,
    falsePositiveRateE_ok s hN, fun i => Nat.mod_lt _ hN⟩

/-- Witness for C9 at the demo filter and key 0. -/
theorem operations_total_w :
    (BloomFilter.fresh 1 1 ((1 : ℝ)/2) 2).insertE (fun k i => k + i) 0 =
      Except.ok ((BloomFilter.fresh 1 1 ((1 : ℝ)/2) 2).insert (fun k i => k + i) 0) ∧
    (0 + (0 + 1)) % (BloomFilter.fresh 1 1 ((1 : ℝ)/2) 2).N <
      (BloomFilter.fresh 1 1 ((1 : ℝ)/2) 2).N :=
  ⟨(operations_total (fun k i => k + i) _ reachable_demo 0).1,
   (operations_total (fun k i => k + i) _ reachable_demo 0).2.2.2 0⟩

/-- C10: find, falsePositiveRate, numBitsSet and len leave the entire
state unchanged (their method view returns the argument state), and insert
never changes the configuration fields n, d, p, N. -/
theorem observers_readonly {α : Type} (hash : α → ℕ → ℕ) :
    (∀ (s : BloomFilter) (k : α), (s.findM hash k).2 = s) ∧
    (∀ s : BloomFilter, s.falsePositiveRateM.2 = s) ∧
    (∀ s : BloomFilter, s.numBitsSetM.2 = s) ∧
    (∀ s : BloomFilter, s.lenM.2 = s) ∧
    (∀ (s : BloomFilter) (k : α),
      (s.insert hash k).n = s.n ∧ (s.insert hash k).d = s.d ∧
      (s.insert hash k).p = s.p ∧ (s.insert hash k).N = s.N) := by
  refine ⟨fun s k => rfl, fun s => rfl, fun s => rfl, fun s => rfl, ?_⟩
  intro s k
  have h := insert_config hash s k
  exact ⟨h.1, h.2.1, h.2.2.1, h.2.2.2.1⟩
